import Mathlib

/-!
Verification of the segmentation and translation-orchestration core of the
contextual translator (src/translation_01.py).

Strings are modelled as `List Char`.  Python integers are modelled as `Int`
(or `Nat` where the source only produces non-negative values).  The two
floating-point comparisons in `split_text_into_chunks`
(`last_sentence > chunk_size * 0.7` and `last_space > chunk_size * 0.5`)
are modelled exactly: IEEE-754 double rounding of the products is carried
out in integer arithmetic (the double 0.7 is 6305039478318694 / 2^53, and
multiplying a double by 0.5 is exact).  The model is exact for every
`chunk_size` below 2^1024 (beyond which Python int-to-float conversion
raises OverflowError, so larger sizes have no defined source behaviour).

The while loop of `split_text_into_chunks` does not terminate on all
inputs, so it is embedded with explicit fuel; `splitRuns` states that some
amount of fuel suffices, and fuel-monotonicity makes the result unique.
-/

namespace CtxTranslator

/-- Bit length of a natural number, computed with structural fuel so that the
kernel can evaluate it: `bitLenAux fuel n` is the bit length of `n` whenever
`n < 2 ^ fuel`. -/
def bitLenAux : Nat → Nat → Nat
  | _, 0 => 0
  | 0, _ + 1 => 0
  | fuel + 1, n + 1 => bitLenAux fuel ((n + 1) / 2) + 1

/-- Bit length, valid for every number below `2 ^ 1100` (comfortably covering
all values a Python float can represent). -/
def bitLen (n : Nat) : Nat := bitLenAux 1100 n

/-- Round `n` to a multiple of `2 ^ s`, ties to even multiples: the rounding
step of IEEE-754 round-to-nearest-even, performed on integers. -/
def rne (n s : Nat) : Nat :=
  if 2 ^ s < 2 * (n % 2 ^ s) ∨ (2 * (n % 2 ^ s) = 2 ^ s ∧ (n / 2 ^ s) % 2 = 1)
  then (n / 2 ^ s + 1) * 2 ^ s else n / 2 ^ s * 2 ^ s

/-- Round an integer to the nearest IEEE-754 double (round to nearest, ties to
even), returned as an integer: doubles that are at least `2 ^ 53` in magnitude
are integers, and integers below `2 ^ 53` are exactly representable. -/
def float53 (n : Nat) : Nat :=
  if bitLen n ≤ 53 then n else rne n (bitLen n - 53)

/-- The double closest to 0.7 is `6305039478318694 / 2 ^ 53`.  `mul07 cs`
is the Python float `float(cs) * 0.7`, scaled by `2 ^ 53`: the int `cs` is
first converted to a double, then multiplied by the double 0.7 with one
rounding. -/
def mul07 (cs : Nat) : Nat := float53 (float53 cs * 6305039478318694)

/-- Python `chunk.rfind(c)`: highest index of `c`, or -1 when absent. -/
def rfind : List Char → Char → Int
  | [], _ => -1
  | a :: rest, c =>
      if 0 ≤ rfind rest c then rfind rest c + 1
      else if a = c then 0 else -1

/-- Python slice `l[i:j]` for int indices: negative indices count from the
end, then both are clamped to `[0, len]`. -/
def pySlice (l : List Char) (i j : Int) : List Char :=
  if (if i < 0 then max (l.length + i) 0 else min i l.length) <
      (if j < 0 then max (l.length + j) 0 else min j l.length) then
    (l.drop (if i < 0 then max (l.length + i) 0 else min i l.length).toNat).take
      ((if j < 0 then max (l.length + j) 0 else min j l.length).toNat -
        (if i < 0 then max (l.length + i) 0 else min i l.length).toNat)
  else []

/-- `max(chunk.rfind('.'), chunk.rfind('!'), chunk.rfind('?'))`. -/
def lastSentence (chunk : List Char) : Int :=
  max (rfind chunk '.') (max (rfind chunk '!') (rfind chunk '?'))

/-- Python `last_sentence > chunk_size * 0.7`, with the right-hand side the
exact double product (scaled by `2 ^ 53`; comparison of int and float in
Python is exact). -/
def sentenceCutB (ls : Int) (cs : Nat) : Bool :=
  decide ((mul07 cs : Int) < ls * 2 ^ 53)

/-- Python `last_space > chunk_size * 0.5`: `float(cs) * 0.5` is exact, so
the comparison is `2 * last_space > float(cs)`. -/
def spaceCutB (lsp : Int) (cs : Nat) : Bool :=
  decide ((float53 cs : Int) < 2 * lsp)

/-- The boundary-selection of one loop iteration: starting from `end = start
+ chunk_size`, prefer a cut right after the last sentence terminator when it
lies past `0.7 * chunk_size`, else the last space when it lies past
`0.5 * chunk_size`, else the hard window edge. -/
def cutEnd (chunk : List Char) (start : Int) (cs : Nat) : Int :=
  if sentenceCutB (lastSentence chunk) cs then start + lastSentence chunk + 1
  else if spaceCutB (rfind chunk ' ') cs then start + rfind chunk ' '
  else start + cs

/-- The `while start < len(text)` loop of `split_text_into_chunks`, with
fuel: `none` means the fuel ran out before the loop finished. -/
def chunkLoop (text : List Char) (cs ov : Nat) : Nat → Int → Option (List (List Char))
  | 0, _ => none
  | fuel + 1, start =>
      if start < (text.length : Int) then
        if (text.length : Int) ≤ start + cs then
          some [pySlice text start text.length]
        else
          match chunkLoop text cs ov fuel
              (cutEnd (pySlice text start (start + cs)) start cs - ov) with
          | none => none
          | some rest =>
              some (pySlice text start (cutEnd (pySlice text start (start + cs)) start cs) :: rest)
      else some []

/-- `split_text_into_chunks(text, chunk_size, overlap)` with explicit fuel
for the while loop. -/
def split_text_into_chunks (text : List Char) (cs ov : Nat) (fuel : Nat) :
    Option (List (List Char)) :=
  if text.length ≤ cs then some [text] else chunkLoop text cs ov fuel 0

/-- The segmentation terminates on `text` with result `r`: some fuel
suffices.  Fuel-monotonicity makes this result unique. -/
def splitRuns (text : List Char) (cs ov : Nat) (r : List (List Char)) : Prop :=
  ∃ fuel, split_text_into_chunks text cs ov fuel = some r

/-- The whitespace characters recognised by Python `str.strip()` (ASCII
range; the source never produces the rarer Unicode space characters in the
places where `strip` is used for a blank test). -/
def isPySpace (c : Char) : Bool :=
  c = ' ' ∨ c = Char.ofNat 9 ∨ c = Char.ofNat 10 ∨ c = Char.ofNat 13 ∨
    c = Char.ofNat 11 ∨ c = Char.ofNat 12

/-- Python `s.strip()`. -/
def pyStrip (l : List Char) : List Char :=
  ((l.dropWhile isPySpace).reverse.dropWhile isPySpace).reverse

/-- Truthiness test `if chunk.strip():` in the orchestration loop. -/
def isBlank (l : List Char) : Bool := pyStrip l = []

/-- The placeholder text returned by `translate_chunk` when the service
call raises: `f"[Échec de la traduction: {str(e)}]"`. -/
def errorMarker (e : List Char) : List Char :=
  "[Échec de la traduction: ".data ++ e ++ "]".data

/-- `translate_chunk`: one external service call wrapped in try/except.  The
Cohere client call is the sole external dependency; it is abstracted as
`tf`, indexed by the ordinal of the segment being translated so that
per-segment service outcomes can be expressed.  On success the translated
text is returned, on failure the error is captured and the placeholder
marker is returned instead of propagating the exception. -/
def translate_chunk (tf : Nat → List Char → Except (List Char) (List Char))
    (i : Nat) (text : List Char) : List Char :=
  match tf i text with
  | .ok r => r
  | .error e => errorMarker e

/-- The `for i, chunk in enumerate(chunks):` loop of `main`: non-blank
chunks are translated and appended to `translated_chunks`, and after each
one the progress bar receives `(i + 1) / len(chunks)` (recorded here as the
exact pair, numerator and denominator).  Blank chunks are skipped entirely:
no result and no progress report. -/
def orchLoop (tf : Nat → List Char → Except (List Char) (List Char)) (total : Nat) :
    List (Nat × List Char) → List (List Char) × List (Nat × Nat)
  | [] => ([], [])
  | p :: rest =>
      if isBlank p.2 then orchLoop tf total rest
      else
        ((translate_chunk tf p.1 p.2 :: (orchLoop tf total rest).1),
         ((p.1 + 1, total) :: (orchLoop tf total rest).2))

/-- Run the orchestration loop over the chunk list. -/
def runOrchestration (tf : Nat → List Char → Except (List Char) (List Char))
    (chunks : List (List Char)) : List (List Char) × List (Nat × Nat) :=
  orchLoop tf chunks.length chunks.enum

/-- `translated_chunks` after the loop. -/
def translatedChunks (tf : Nat → List Char → Except (List Char) (List Char))
    (chunks : List (List Char)) : List (List Char) :=
  (runOrchestration tf chunks).1

/-- The sequence of progress-bar updates, as exact fractions
`(segments done so far, total)`.  The sequence does not depend on the
translation outcomes, only on which chunks are blank. -/
def progressReports (chunks : List (List Char)) : List (Nat × Nat) :=
  (runOrchestration (fun _ t => Except.ok t) chunks).2

/-- `full_translation = " ".join(translated_chunks)`. -/
def fullTranslation (tf : Nat → List Char → Except (List Char) (List Char))
    (chunks : List (List Char)) : List Char :=
  List.intercalate [' '] (translatedChunks tf chunks)

/-- The reconstruction described by the spec: the first segment, followed by
every later segment stripped of its leading `overlap` characters. -/
def reconstruct (ov : Nat) : List (List Char) → List Char
  | [] => []
  | c :: rest => c ++ (rest.map (List.drop ov)).flatten

/-! ### Arithmetic facts about the float model -/

theorem bitLenAux_zero (f : Nat) : bitLenAux f 0 = 0 := by
  cases f <;> rfl

theorem bitLenAux_spec : ∀ fuel n, n < 2 ^ fuel →
    n < 2 ^ bitLenAux fuel n ∧ (1 ≤ n → 2 ^ (bitLenAux fuel n - 1) ≤ n) := by
  intro fuel
  induction fuel with
  | zero =>
      intro n h
      have hn : n = 0 := by simpa using Nat.lt_one_iff.mp h
      subst hn
      simp [bitLenAux]
  | succ f ih =>
      intro n h
      match n with
      | 0 => simp [bitLenAux]
      | n + 1 =>
        have hh : (n + 1) / 2 < 2 ^ f := by
          have h2 : n + 1 < 2 * 2 ^ f := by
            have := h
            rw [pow_succ] at this
            omega
          omega
        obtain ⟨h1, h2⟩ := ih ((n + 1) / 2) hh
        have heq : bitLenAux (f + 1) (n + 1) = bitLenAux f ((n + 1) / 2) + 1 := rfl
        rw [heq]
        refine ⟨?_, fun _ => ?_⟩
        · rw [pow_succ]
          omega
        · rw [Nat.add_sub_cancel]
          rcases Nat.eq_zero_or_pos ((n + 1) / 2) with hm | hm
          · have hz : bitLenAux f ((n + 1) / 2) = 0 := by rw [hm]; exact bitLenAux_zero f
            rw [hz]
            omega
          · have h2' := h2 hm
            rcases Nat.eq_zero_or_pos (bitLenAux f ((n + 1) / 2)) with hL | hL
            · rw [hL] at h1
              omega
            · have hsp : 2 ^ bitLenAux f ((n + 1) / 2) =
                  2 ^ (bitLenAux f ((n + 1) / 2) - 1) * 2 := by
                conv_lhs => rw [← Nat.sub_add_cancel hL]
                rw [pow_succ]
              rw [hsp]
              omega

theorem lt_two_pow_bitLen {n : Nat} (h : n < 2 ^ 1100) : n < 2 ^ bitLen n :=
  (bitLenAux_spec 1100 n h).1

theorem two_pow_bitLen_pred_le {n : Nat} (h1 : 1 ≤ n) (h : n < 2 ^ 1100) :
    2 ^ (bitLen n - 1) ≤ n :=
  (bitLenAux_spec 1100 n h).2 h1

theorem bitLen_le {n k : Nat} (h : n < 2 ^ k) (h1100 : n < 2 ^ 1100) :
    bitLen n ≤ k := by
  rcases Nat.eq_zero_or_pos n with hn | hn
  · subst hn
    simp [bitLen, bitLenAux]
  · by_contra hc
    push_neg at hc
    have hk : k ≤ bitLen n - 1 := by omega
    have := two_pow_bitLen_pred_le hn h1100
    have h2 : 2 ^ k ≤ 2 ^ (bitLen n - 1) := Nat.pow_le_pow_right (by norm_num) hk
    omega

theorem le_rne_add_half (n s : Nat) : n ≤ rne n s + 2 ^ s / 2 := by
  have hpos : 0 < 2 ^ s := Nat.pos_pow_of_pos s (by norm_num)
  unfold rne
  set k := 2 ^ s with hk
  set q := n / k with hq
  set r := n % k with hr
  have hdm : k * q + r = n := Nat.div_add_mod n k
  have hrk : r < k := Nat.mod_lt n hpos
  have hqk : q * k = k * q := Nat.mul_comm q k
  split
  · rw [Nat.add_mul, Nat.one_mul]
    omega
  · rename_i hcond
    have hle : 2 * r ≤ k := by
      rcases Nat.lt_or_ge k (2 * r) with hgt | hge
      · exact absurd (Or.inl hgt) hcond
      · exact hge
    omega

theorem float53_eq_self {n : Nat} (h : n < 2 ^ 53) : float53 n = n := by
  have h1100 : n < 2 ^ 1100 := by
    calc n < 2 ^ 53 := h
    _ ≤ 2 ^ 1100 := Nat.pow_le_pow_right (by norm_num) (by norm_num)
  unfold float53
  rw [if_pos (bitLen_le h h1100)]

/-- The key lower bound on the 0.7 threshold: for a chunk size below
`2 ^ 53`, the Python float `cs * 0.7` is at least `cs / 2` (scaled:
`mul07 cs ≥ cs * 2 ^ 52`). -/
theorem mul07_lower {cs : Nat} (h1 : 1 ≤ cs) (h53 : cs < 2 ^ 53) :
    cs * 2 ^ 52 ≤ mul07 cs := by
  unfold mul07
  rw [float53_eq_self h53]
  set x := cs * 6305039478318694 with hxdef
  have hx1 : 1 ≤ x := by
    have : 1 * 1 ≤ cs * 6305039478318694 := Nat.mul_le_mul h1 (by norm_num)
    omega
  have hxlt : x < 2 ^ 106 := by
    have : cs * 6305039478318694 < 2 ^ 53 * 2 ^ 53 :=
      Nat.mul_lt_mul_of_lt_of_le h53 (by norm_num) (by norm_num)
    calc x < 2 ^ 53 * 2 ^ 53 := this
    _ = 2 ^ 106 := by norm_num
  have hx1100 : x < 2 ^ 1100 := by
    calc x < 2 ^ 106 := hxlt
    _ ≤ 2 ^ 1100 := Nat.pow_le_pow_right (by norm_num) (by norm_num)
  unfold float53
  split
  · have : cs * 2 ^ 52 ≤ cs * 6305039478318694 :=
      Nat.mul_le_mul_left cs (by norm_num)
    omega
  · rename_i hbig
    push_neg at hbig
    set L := bitLen x with hLdef
    have hL54 : 54 ≤ L := hbig
    have hlow : 2 ^ (L - 1) ≤ x := two_pow_bitLen_pred_le hx1 hx1100
    have hhalf : 2 ^ (L - 53) / 2 = 2 ^ (L - 54) := by
      have : L - 53 = (L - 54) + 1 := by omega
      rw [this, pow_succ]
      omega
    have hrne := le_rne_add_half x (L - 53)
    rw [hhalf] at hrne
    have hAbound : 2 ^ (L - 54) * 2 ^ 53 ≤ x := by
      have : 2 ^ (L - 54) * 2 ^ 53 = 2 ^ (L - 1) := by
        rw [← pow_add]
        congr 1
        omega
      omega
    have e53 : (2 : Nat) ^ 53 = 9007199254740992 := by norm_num
    have e52 : (2 : Nat) ^ 52 = 4503599627370496 := by norm_num
    rw [e53] at hAbound
    rw [e52]
    omega

theorem sentenceCutB_half {ls : Int} {cs : Nat} (h : sentenceCutB ls cs = true)
    (h1 : 1 ≤ cs) (h53 : cs < 2 ^ 53) : (cs : Int) < 2 * ls := by
  have hlt : (mul07 cs : Int) < ls * 2 ^ 53 := by
    simpa [sentenceCutB] using h
  have hlb : (cs * 2 ^ 52 : Int) ≤ (mul07 cs : Int) := by
    exact_mod_cast Int.ofNat_le.mpr (mul07_lower h1 h53)
  have h2 : (cs : Int) * 2 ^ 52 < (2 * ls) * 2 ^ 52 := by
    have : ls * 2 ^ 53 = (2 * ls) * 2 ^ 52 := by ring
    rw [this] at hlt
    calc (cs : Int) * 2 ^ 52 ≤ (mul07 cs : Int) := by exact_mod_cast hlb
    _ < (2 * ls) * 2 ^ 52 := hlt
  exact lt_of_mul_lt_mul_right h2 (by positivity)

theorem spaceCutB_half {lsp : Int} {cs : Nat} (h : spaceCutB lsp cs = true)
    (h53 : cs < 2 ^ 53) : (cs : Int) < 2 * lsp := by
  have hlt : (float53 cs : Int) < 2 * lsp := by
    simpa [spaceCutB] using h
  rwa [float53_eq_self h53] at hlt

theorem sentenceCutB_pos {ls : Int} {cs : Nat} (h : sentenceCutB ls cs = true) :
    1 ≤ ls := by
  have hlt : (mul07 cs : Int) < ls * 2 ^ 53 := by
    simpa [sentenceCutB] using h
  have h0 : (0 : Int) ≤ (mul07 cs : Int) := Int.ofNat_nonneg _
  nlinarith

theorem spaceCutB_pos {lsp : Int} {cs : Nat} (h : spaceCutB lsp cs = true) :
    1 ≤ lsp := by
  have hlt : (float53 cs : Int) < 2 * lsp := by
    simpa [spaceCutB] using h
  have h0 : (0 : Int) ≤ (float53 cs : Int) := Int.ofNat_nonneg _
  omega

/-! ### Facts about rfind and pySlice -/

theorem rfind_lt_length (l : List Char) (c : Char) :
    rfind l c < (l.length : Int) := by
  induction l with
  | nil => simp [rfind]
  | cons a rest ih =>
      simp only [rfind, List.length_cons]
      split
      · push_cast
        omega
      · split
        · push_cast
          omega
        · push_cast
          omega

theorem lastSentence_lt_length (chunk : List Char) :
    lastSentence chunk < (chunk.length : Int) := by
  unfold lastSentence
  have h1 := rfind_lt_length chunk '.'
  have h2 := rfind_lt_length chunk '!'
  have h3 := rfind_lt_length chunk '?'
  omega

theorem pySlice_eq_drop_take (l : List Char) (i j : Int) (hi0 : 0 ≤ i)
    (hj0 : 0 ≤ j) (hil : i ≤ (l.length : Int)) (hjl : j ≤ (l.length : Int)) :
    pySlice l i j = (l.drop i.toNat).take (j.toNat - i.toNat) := by
  have h1 : (if i < 0 then max ((l.length : Int) + i) 0 else min i (l.length : Int)) = i := by
    rw [if_neg (not_lt.mpr hi0)]
    exact min_eq_left hil
  have h2 : (if j < 0 then max ((l.length : Int) + j) 0 else min j (l.length : Int)) = j := by
    rw [if_neg (not_lt.mpr hj0)]
    exact min_eq_left hjl
  unfold pySlice
  rw [h1, h2]
  split
  · rfl
  · rename_i hij
    push_neg at hij
    have hz : j.toNat - i.toNat = 0 := by omega
    rw [hz]
    simp

theorem pySlice_length_eq (l : List Char) (i j : Int) (hi0 : 0 ≤ i)
    (hij : i ≤ j) (hjl : j ≤ (l.length : Int)) :
    ((pySlice l i j).length : Int) = j - i := by
  rw [pySlice_eq_drop_take l i j hi0 (le_trans hi0 hij) (le_trans hij hjl) hjl]
  simp only [List.length_take, List.length_drop]
  omega

theorem pySlice_append_drop (l : List Char) (i j : Int) (hi0 : 0 ≤ i)
    (hij : i ≤ j) (hjl : j ≤ (l.length : Int)) :
    pySlice l i j ++ l.drop j.toNat = l.drop i.toNat := by
  rw [pySlice_eq_drop_take l i j hi0 (le_trans hi0 hij) (le_trans hij hjl) hjl]
  have hd : l.drop j.toNat = (l.drop i.toNat).drop (j.toNat - i.toNat) := by
    rw [List.drop_drop]
    congr 1
    omega
  rw [hd, List.take_append_drop]

theorem pySlice_length_le (l : List Char) (i j : Int) (cs : Nat)
    (hi : -(cs : Int) < i) (hj0 : 0 ≤ j)
    (hlen : (cs : Int) < (l.length : Int)) (hij : j - i ≤ (cs : Int)) :
    ((pySlice l i j).length : Int) ≤ (cs : Int) := by
  unfold pySlice
  rw [if_neg (not_lt.mpr hj0)]
  by_cases hi0 : i < 0
  · rw [if_pos hi0]
    split
    · simp only [List.length_take, List.length_drop]
      push_cast
      omega
    · simp
  · rw [if_neg hi0]
    split
    · simp only [List.length_take, List.length_drop]
      push_cast
      omega
    · simp

/-! ### Fuel monotonicity and uniqueness of the loop result -/

theorem chunkLoop_mono {text : List Char} {cs ov : Nat} :
    ∀ (f1 f2 : Nat) (start : Int) (r : List (List Char)),
      f1 ≤ f2 → chunkLoop text cs ov f1 start = some r →
      chunkLoop text cs ov f2 start = some r := by
  intro f1
  induction f1 with
  | zero =>
      intro f2 start r _ h
      simp [chunkLoop] at h
  | succ f ih =>
      intro f2 start r hle h
      obtain ⟨f2', rfl⟩ : ∃ k, f2 = k + 1 := ⟨f2 - 1, by omega⟩
      by_cases h1 : start < (text.length : Int)
      · by_cases h2 : (text.length : Int) ≤ start + cs
        · simp only [chunkLoop, if_pos h1, if_pos h2] at h ⊢
          exact h
        · simp only [chunkLoop, if_pos h1, if_neg h2] at h ⊢
          cases hrec : chunkLoop text cs ov f
              (cutEnd (pySlice text start (start + cs)) start cs - ov) with
          | none =>
              rw [hrec] at h
              simp at h
          | some rest =>
              rw [hrec] at h
              rw [ih f2' _ rest (by omega) hrec]
              exact h
      · simp only [chunkLoop, if_neg h1] at h ⊢
        exact h

theorem split_mono {text : List Char} {cs ov : Nat} {f1 f2 : Nat}
    {r : List (List Char)} (hle : f1 ≤ f2)
    (h : split_text_into_chunks text cs ov f1 = some r) :
    split_text_into_chunks text cs ov f2 = some r := by
  unfold split_text_into_chunks at h ⊢
  split at h
  · rename_i hsmall
    rw [if_pos hsmall]
    exact h
  · rename_i hsmall
    rw [if_neg hsmall]
    exact chunkLoop_mono f1 f2 0 r hle h

theorem splitRuns_unique {text : List Char} {cs ov : Nat}
    {r1 r2 : List (List Char)} (h1 : splitRuns text cs ov r1)
    (h2 : splitRuns text cs ov r2) : r1 = r2 := by
  obtain ⟨g1, h1⟩ := h1
  obtain ⟨g2, h2⟩ := h2
  have e1 := split_mono (Nat.le_max_left g1 g2) h1
  have e2 := split_mono (Nat.le_max_right g1 g2) h2
  rw [e1] at e2
  exact Option.some.inj e2

/-! ### Behaviour of one loop iteration -/

theorem sentenceCutB_neg_one (cs : Nat) : sentenceCutB (-1) cs = false := by
  simp only [sentenceCutB, decide_eq_false_iff_not, not_lt]
  have h0 : (0 : Int) ≤ (mul07 cs : Int) := Int.ofNat_nonneg _
  omega

theorem spaceCutB_neg_one (cs : Nat) : spaceCutB (-1) cs = false := by
  simp only [spaceCutB, decide_eq_false_iff_not, not_lt]
  have h0 : (0 : Int) ≤ (float53 cs : Int) := Int.ofNat_nonneg _
  omega

theorem lastSentence_nil : lastSentence [] = -1 := by decide

theorem cutEnd_nil (start : Int) (cs : Nat) : cutEnd [] start cs = start + cs := by
  unfold cutEnd
  rw [lastSentence_nil, sentenceCutB_neg_one]
  have hr : rfind [] ' ' = -1 := rfl
  rw [hr, spaceCutB_neg_one]
  simp

theorem pySlice_neg_start_empty {text : List Char} {cs : Nat} {start : Int}
    (hneg : start < 0) (hgt : -(cs : Int) < start)
    (hlen : (cs : Int) < (text.length : Int)) :
    pySlice text start (start + cs) = [] := by
  unfold pySlice
  rw [if_pos hneg, if_neg (by omega : ¬ start + (cs : Int) < 0)]
  rw [if_neg (by omega)]

/-- Range of the selected cut: it never runs past the hard window edge, and
never moves before the window start by more than nothing — with a chunk of
the window, `cutEnd` stays within `[0, start + cs]` for `start ≥ 0`. -/
theorem cutEnd_range {chunk : List Char} {start : Int} {cs : Nat}
    (hstart : 0 ≤ start) (hchlen : (chunk.length : Int) ≤ (cs : Int)) :
    0 ≤ cutEnd chunk start cs ∧ cutEnd chunk start cs ≤ start + cs := by
  unfold cutEnd
  split
  · rename_i hcut
    have hp := sentenceCutB_pos hcut
    have hl := lastSentence_lt_length chunk
    omega
  · split
    · rename_i hcut
      have hp := spaceCutB_pos hcut
      have hl := rfind_lt_length chunk ' '
      omega
    · omega

/-- Under the safe-overlap condition `2 * overlap ≤ chunk_size` (and a
chunk size below `2 ^ 53`), every selected cut advances the window start:
each branch cuts past half the window, which is past the overlap. -/
theorem cutEnd_bounds {text : List Char} {cs ov : Nat} {start : Int}
    (hcs : 1 ≤ cs) (h53 : cs < 2 ^ 53) (hov : 2 * ov ≤ cs)
    (h0 : 0 ≤ start) (hend : start + (cs : Int) < (text.length : Int)) :
    start + (ov : Int) < cutEnd (pySlice text start (start + cs)) start cs ∧
    cutEnd (pySlice text start (start + cs)) start cs ≤ start + (cs : Int) := by
  set chunk := pySlice text start (start + cs) with hchunk
  have hlen : ((chunk.length : Int)) = (cs : Int) := by
    have h := pySlice_length_eq text start (start + cs) h0 (by omega) (by omega)
    rw [← hchunk] at h
    omega
  unfold cutEnd
  split
  · rename_i hcut
    have hhalf := sentenceCutB_half hcut hcs h53
    have hl := lastSentence_lt_length chunk
    omega
  · split
    · rename_i hcut
      have hhalf := spaceCutB_half hcut h53
      have hl := rfind_lt_length chunk ' '
      omega
    · omega

/-! ### Termination of the loop under the safe-overlap condition -/

theorem chunkLoop_term {text : List Char} {cs ov : Nat}
    (hcs : 1 ≤ cs) (h53 : cs < 2 ^ 53) (hov : 2 * ov ≤ cs) :
    ∀ (k : Nat) (start : Int), 0 ≤ start → (text.length : Int) ≤ start + k →
      ∃ l, chunkLoop text cs ov (k + 1) start = some l := by
  intro k
  induction k with
  | zero =>
      intro start h0 hk
      refine ⟨[], ?_⟩
      simp only [chunkLoop]
      rw [if_neg (by push_cast at hk; omega)]
  | succ k ih =>
      intro start h0 hk
      by_cases h1 : start < (text.length : Int)
      · by_cases h2 : (text.length : Int) ≤ start + cs
        · refine ⟨[pySlice text start text.length], ?_⟩
          simp only [chunkLoop, if_pos h1, if_pos h2]
        · push_neg at h2
          obtain ⟨hlo, hhi⟩ := cutEnd_bounds hcs h53 hov h0 h2
          obtain ⟨l, hl⟩ := ih
            (cutEnd (pySlice text start (start + cs)) start cs - ov)
            (by omega) (by push_cast at hk ⊢; omega)
          refine ⟨pySlice text start
            (cutEnd (pySlice text start (start + cs)) start cs) :: l, ?_⟩
          rw [chunkLoop, if_pos h1, if_neg (not_le.mpr h2), hl]
      · refine ⟨[], ?_⟩
        simp only [chunkLoop, if_neg h1]

/-- The first `overlap` characters of the next segment are the same text as
the last `overlap` characters of the previous one: both are the slice
`text[e - ov : e]` around the cut position `e`. -/
theorem slice_overlap_eq {text : List Char} {ov : Nat} {s e e' : Int}
    (h0 : 0 ≤ s) (h1 : s + (ov : Int) < e) (h2 : e ≤ (text.length : Int))
    (h3 : e < e') (h4 : e' ≤ (text.length : Int)) :
    (pySlice text (e - ov) e').take ov =
      (pySlice text s e).drop ((pySlice text s e).length - ov) := by
  rw [pySlice_eq_drop_take text (e - ov) e' (by omega) (by omega) (by omega) h4,
    pySlice_eq_drop_take text s e h0 (by omega) (by omega) h2,
    List.take_take, List.length_take, List.length_drop, List.drop_take,
    List.drop_drop]
  congr 1
  · omega
  · congr 1
    omega

/-- Loop invariant under the safe-overlap condition: starting the loop at
`start`, the produced chunk list is non-empty, its first chunk is a slice
starting at `start`, every chunk is longer than the overlap, the
reconstruction (first chunk plus later chunks stripped of their leading
overlap) is exactly the rest of the text, and consecutive chunks share
exactly the `overlap` characters around each cut. -/
theorem chunkLoop_invariant {text : List Char} {cs ov : Nat}
    (hcs : 1 ≤ cs) (h53 : cs < 2 ^ 53) (hov : 2 * ov ≤ cs) :
    ∀ (fuel : Nat) (start : Int) (l : List (List Char)),
      chunkLoop text cs ov fuel start = some l →
      0 ≤ start → start + (ov : Int) < (text.length : Int) →
      (∃ e : Int, start < e ∧ e ≤ (text.length : Int) ∧
          l.head? = some (pySlice text start e)) ∧
      (∀ c ∈ l, (ov : Int) < (c.length : Int)) ∧
      reconstruct ov l = text.drop start.toNat ∧
      l.Chain' (fun a b => b.take ov = a.drop (a.length - ov)) := by
  intro fuel
  induction fuel with
  | zero =>
      intro start l h _ _
      simp [chunkLoop] at h
  | succ f ih =>
      intro start l h h0 hovlt
      have h1 : start < (text.length : Int) := by omega
      by_cases h2 : (text.length : Int) ≤ start + cs
      · simp only [chunkLoop, if_pos h1, if_pos h2] at h
        have hl : l = [pySlice text start (text.length : Int)] :=
          (Option.some.inj h).symm
        subst hl
        have hlen : ((pySlice text start (text.length : Int)).length : Int)
            = (text.length : Int) - start :=
          pySlice_length_eq text start _ h0 (by omega) (by omega)
        refine ⟨⟨(text.length : Int), by omega, le_refl _, List.head?_cons⟩, ?_, ?_, ?_⟩
        · intro c hc
          simp only [List.mem_singleton] at hc
          subst hc
          omega
        · have happ := pySlice_append_drop text start (text.length : Int) h0
            (by omega) (by omega)
          have hdl : text.drop ((text.length : Int)).toNat = [] := by
            have he : ((text.length : Int)).toNat = text.length := by omega
            rw [he]
            exact List.drop_length text
          rw [hdl, List.append_nil] at happ
          simpa [reconstruct] using happ
        · exact List.chain'_singleton _
      · simp only [chunkLoop, if_pos h1, if_neg h2] at h
        push_neg at h2
        cases hrec : chunkLoop text cs ov f
            (cutEnd (pySlice text start (start + cs)) start cs - ov) with
        | none =>
            rw [hrec] at h
            simp at h
        | some rest =>
            rw [hrec] at h
            have hl : l = pySlice text start
                (cutEnd (pySlice text start (start + cs)) start cs) :: rest :=
              (Option.some.inj h).symm
            subst hl
            obtain ⟨hlo, hhi⟩ := cutEnd_bounds hcs h53 hov h0 h2
            obtain ⟨⟨e', he'1, he'2, hhead⟩, hlens, hrecon, hchain⟩ :=
              ih _ rest hrec (by omega) (by omega)
            have hc0len : ((pySlice text start
                (cutEnd (pySlice text start (start + cs)) start cs)).length : Int) =
                cutEnd (pySlice text start (start + cs)) start cs - start :=
              pySlice_length_eq text start _ h0 (by omega) (by omega)
            cases rest with
            | nil => simp at hhead
            | cons r0 rtail =>
                simp only [List.head?_cons, Option.some.injEq] at hhead
                refine ⟨⟨cutEnd (pySlice text start (start + cs)) start cs,
                    by omega, by omega, List.head?_cons⟩, ?_, ?_, ?_⟩
                · intro c hc
                  rcases List.mem_cons.mp hc with hc | hc
                  · subst hc
                    omega
                  · exact hlens c hc
                · have hr0len : (ov : Int) < (r0.length : Int) :=
                    hlens r0 (List.mem_cons_self _ _)
                  have hstep : ((r0 :: rtail).map (List.drop ov)).flatten
                      = List.drop ov (reconstruct ov (r0 :: rtail)) := by
                    simp only [List.map_cons, List.flatten_cons, reconstruct]
                    rw [List.drop_append_eq_append_drop]
                    have hz : ov - r0.length = 0 := by omega
                    rw [hz, List.drop_zero]
                  show pySlice text start _ ++ ((r0 :: rtail).map (List.drop ov)).flatten = _
                  rw [hstep, hrecon, List.drop_drop]
                  have harg : (cutEnd (pySlice text start (start + cs)) start cs
                      - (ov : Int)).toNat + ov =
                      (cutEnd (pySlice text start (start + cs)) start cs).toNat := by
                    omega
                  rw [harg]
                  exact pySlice_append_drop text start _ h0 (by omega) (by omega)
                · rw [List.chain'_cons]
                  refine ⟨?_, hchain⟩
                  subst hhead
                  have hr0len : (ov : Int) <
                      ((pySlice text (cutEnd (pySlice text start (start + cs)) start cs
                        - ov) e').length : Int) :=
                    hlens _ (List.mem_cons_self _ _)
                  have he2e' : cutEnd (pySlice text start (start + cs)) start cs < e' := by
                    have hq := pySlice_length_eq text
                      (cutEnd (pySlice text start (start + cs)) start cs - ov) e'
                      (by omega) (by omega) he'2
                    omega
                  exact slice_overlap_eq h0 hlo (by omega) he2e' he'2

/-- Every produced chunk fits in the window: chunk length never exceeds the
chunk size (no hypothesis on the overlap beyond `overlap < chunk_size`). -/
theorem chunkLoop_len_le {text : List Char} {cs ov : Nat}
    (hov : ov < cs) (hlen : (cs : Int) < (text.length : Int)) :
    ∀ (fuel : Nat) (start : Int) (l : List (List Char)),
      chunkLoop text cs ov fuel start = some l →
      -(cs : Int) < start →
      ∀ c ∈ l, (c.length : Int) ≤ (cs : Int) := by
  intro fuel
  induction fuel with
  | zero =>
      intro start l h _
      simp [chunkLoop] at h
  | succ f ih =>
      intro start l h hstart
      by_cases h1 : start < (text.length : Int)
      · by_cases h2 : (text.length : Int) ≤ start + cs
        · simp only [chunkLoop, if_pos h1, if_pos h2] at h
          have hl : l = [pySlice text start (text.length : Int)] :=
            (Option.some.inj h).symm
          subst hl
          intro c hc
          simp only [List.mem_singleton] at hc
          subst hc
          exact pySlice_length_le text start _ cs hstart (Int.ofNat_nonneg _)
            hlen (by omega)
        · simp only [chunkLoop, if_pos h1, if_neg h2] at h
          push_neg at h2
          cases hrec : chunkLoop text cs ov f
              (cutEnd (pySlice text start (start + cs)) start cs - ov) with
          | none =>
              rw [hrec] at h
              simp at h
          | some rest =>
              rw [hrec] at h
              have hl : l = pySlice text start
                  (cutEnd (pySlice text start (start + cs)) start cs) :: rest :=
                (Option.some.inj h).symm
              subst hl
              have hrange : 0 ≤ cutEnd (pySlice text start (start + cs)) start cs ∧
                  cutEnd (pySlice text start (start + cs)) start cs ≤ start + cs := by
                by_cases hneg : start < 0
                · have hempty := pySlice_neg_start_empty hneg hstart hlen
                  rw [hempty, cutEnd_nil]
                  omega
                · push_neg at hneg
                  have hch : ((pySlice text start (start + cs)).length : Int) ≤ cs :=
                    pySlice_length_le text start (start + cs) cs hstart (by omega)
                      hlen (by omega)
                  exact cutEnd_range hneg hch
              intro c hc
              rcases List.mem_cons.mp hc with hc | hc
              · subst hc
                exact pySlice_length_le text start _ cs hstart hrange.1 hlen (by omega)
              · exact ih _ rest hrec (by omega) c hc
      · simp only [chunkLoop, if_neg h1] at h
        have hl : l = [] := (Option.some.inj h).symm
        subst hl
        intro c hc
        simp at hc

theorem chunkLoop_ne_nil {text : List Char} {cs ov fuel : Nat} {start : Int}
    {l : List (List Char)} (h : chunkLoop text cs ov fuel start = some l)
    (h1 : start < (text.length : Int)) : l ≠ [] := by
  cases fuel with
  | zero => simp [chunkLoop] at h
  | succ f =>
      simp only [chunkLoop, if_pos h1] at h
      split at h
      · have hl : l = [pySlice text start (text.length : Int)] :=
          (Option.some.inj h).symm
        subst hl
        simp
      · cases hrec : chunkLoop text cs ov f
            (cutEnd (pySlice text start (start + cs)) start cs - ov) with
        | none =>
            rw [hrec] at h
            simp at h
        | some rest =>
            rw [hrec] at h
            have hl : l = pySlice text start
                (cutEnd (pySlice text start (start + cs)) start cs) :: rest :=
              (Option.some.inj h).symm
            subst hl
            simp

/-- Top-level termination: with `2 * overlap ≤ chunk_size` (and a chunk
size below `2 ^ 53`) the segmentation always terminates, and the chunk list
is never empty. -/
theorem split_terminates (text : List Char) (cs ov : Nat)
    (hcs : 0 < cs) (h53 : cs < 2 ^ 53) (hov : 2 * ov ≤ cs) :
    ∃ l, splitRuns text cs ov l ∧ l ≠ [] := by
  by_cases hsmall : text.length ≤ cs
  · refine ⟨[text], ⟨1, ?_⟩, by simp⟩
    unfold split_text_into_chunks
    rw [if_pos hsmall]
  · have hside : (text.length : Int) ≤ 0 + (text.length : Int) := by omega
    obtain ⟨l, hl⟩ := @chunkLoop_term text cs ov hcs h53 hov text.length 0 le_rfl
      (by push_cast at hside ⊢; omega)
    refine ⟨l, ⟨text.length + 1, ?_⟩, ?_⟩
    · unfold split_text_into_chunks
      rw [if_neg hsmall]
      exact hl
    · exact chunkLoop_ne_nil hl (by push_cast at hsmall ⊢; omega)

/-- Top-level reconstruction: with `2 * overlap ≤ chunk_size`, the first
chunk followed by the later chunks stripped of their leading `overlap`
characters is exactly the input text. -/
theorem split_reconstruct {text : List Char} {cs ov : Nat} {l : List (List Char)}
    (hcs : 0 < cs) (h53 : cs < 2 ^ 53) (hov : 2 * ov ≤ cs)
    (h : splitRuns text cs ov l) : reconstruct ov l = text := by
  obtain ⟨fuel, h⟩ := h
  unfold split_text_into_chunks at h
  split at h
  · have hl : l = [text] := (Option.some.inj h).symm
    subst hl
    simp [reconstruct]
  · rename_i hsmall
    push_neg at hsmall
    have hside : (0 : Int) + (ov : Int) < (text.length : Int) := by
      push_cast
      omega
    have hinv := chunkLoop_invariant hcs h53 hov fuel 0 l h le_rfl hside
    have hrec := hinv.2.2.1
    simpa using hrec

/-- Top-level overlap sharing: with `2 * overlap ≤ chunk_size`, each chunk
after the first begins with exactly the `overlap` trailing characters of
its predecessor. -/
theorem split_overlap_chain {text : List Char} {cs ov : Nat} {l : List (List Char)}
    (hcs : 0 < cs) (h53 : cs < 2 ^ 53) (hov : 2 * ov ≤ cs)
    (h : splitRuns text cs ov l) :
    l.Chain' (fun a b => b.take ov = a.drop (a.length - ov)) := by
  obtain ⟨fuel, h⟩ := h
  unfold split_text_into_chunks at h
  split at h
  · have hl : l = [text] := (Option.some.inj h).symm
    subst hl
    exact List.chain'_singleton _
  · rename_i hsmall
    push_neg at hsmall
    have hside : (0 : Int) + (ov : Int) < (text.length : Int) := by
      push_cast
      omega
    have hinv := chunkLoop_invariant hcs h53 hov fuel 0 l h le_rfl hside
    exact hinv.2.2.2

/-- Top-level window bound: every chunk has length at most `chunk_size`. -/
theorem split_chunk_len_le {text : List Char} {cs ov : Nat} {l : List (List Char)}
    (hov : ov < cs) (h : splitRuns text cs ov l) :
    ∀ c ∈ l, c.length ≤ cs := by
  obtain ⟨fuel, h⟩ := h
  unfold split_text_into_chunks at h
  split at h
  · rename_i hsmall
    have hl : l = [text] := (Option.some.inj h).symm
    subst hl
    intro c hc
    simp only [List.mem_singleton] at hc
    subst hc
    exact hsmall
  · rename_i hsmall
    push_neg at hsmall
    intro c hc
    have hle := chunkLoop_len_le hov (by push_cast; omega) fuel 0 l h
      (by push_cast; omega) c hc
    omega

/-! ### Orchestration lemmas -/

theorem orchLoop_reports (tf : Nat → List Char → Except (List Char) (List Char))
    (total : Nat) :
    ∀ ps : List (Nat × List Char),
      (orchLoop tf total ps).2 =
        (ps.filter (fun p => !isBlank p.2)).map (fun p => (p.1 + 1, total)) := by
  intro ps
  induction ps with
  | nil => rfl
  | cons p rest ih =>
      by_cases hb : isBlank p.2
      · simp [orchLoop, hb, ih, List.filter_cons]
      · simp [orchLoop, hb, ih, List.filter_cons]

/-! ### Claim theorems -/

/-- C1: when the translation service fails only for segment index 1, the
orchestration loop records the placeholder error marker for that segment
and still attempts and records every remaining segment: the run returns
the correct results for indices 0 and 2, the marker at index 1, and does
not abort (the loop is total). -/
theorem c1_partial_failure_isolated
    (tf : Nat → List Char → Except (List Char) (List Char))
    (s0 s1 s2 t0 t2 e : List Char)
    (hb0 : isBlank s0 = false) (hb1 : isBlank s1 = false) (hb2 : isBlank s2 = false)
    (h0 : tf 0 s0 = Except.ok t0) (h1 : tf 1 s1 = Except.error e)
    (h2 : tf 2 s2 = Except.ok t2) :
    translatedChunks tf [s0, s1, s2] = [t0, errorMarker e, t2] := by
  unfold translatedChunks runOrchestration
  have he : ([s0, s1, s2] : List (List Char)).enum = [(0, s0), (1, s1), (2, s2)] := rfl
  rw [he]
  simp [orchLoop, hb0, hb1, hb2, translate_chunk, h0, h1, h2]

theorem c1_witness :
    translatedChunks
      (fun i t => if i = 1 then Except.error "boom".data else Except.ok t)
      ["a".data, "b".data, "c".data]
      = ["a".data, errorMarker "boom".data, "c".data] :=
  c1_partial_failure_isolated
    (fun i t => if i = 1 then Except.error "boom".data else Except.ok t)
    "a".data "b".data "c".data "a".data "c".data "boom".data
    (by decide) (by decide) (by decide) rfl rfl rfl

/-- C2 counterexample: the claim that overlap characters are not translated
twice is false.  With 30 characters, chunk size 10 and overlap 3, each
chunk after the first re-includes the previous three characters; every
chunk is non-blank, so every chunk is submitted whole to the translation
service (shown with the identity service), and the total number of
submitted characters is 39, more than the 30 characters of the input —
some characters are submitted (hence translated) twice. -/
theorem c2_counterexample :
    splitRuns (List.replicate 30 'a') 10 3
      [List.replicate 10 'a', List.replicate 10 'a', List.replicate 10 'a',
        List.replicate 9 'a'] ∧
    ((translatedChunks (fun _ t => Except.ok t)
        [List.replicate 10 'a', List.replicate 10 'a', List.replicate 10 'a',
          List.replicate 9 'a']).map List.length).sum = 39 ∧
    (List.replicate 30 'a').length = 30 :=
  ⟨⟨5, by decide⟩, by decide, by decide⟩

/-- C2 amended: the overlap characters are repeated in the next segment and
are submitted again, rather than only biasing the cut search: under the
safe-overlap condition, each chunk after the first begins with exactly the
`overlap` trailing characters of its predecessor. -/
theorem c2_amended {text : List Char} {cs ov : Nat} {l : List (List Char)}
    (hcs : 0 < cs) (h53 : cs < 2 ^ 53) (hov : 2 * ov ≤ cs)
    (h : splitRuns text cs ov l) :
    l.Chain' (fun a b => b.take ov = a.drop (a.length - ov)) :=
  split_overlap_chain hcs h53 hov h

theorem c2_witness :
    ([List.replicate 10 'a', List.replicate 10 'a', List.replicate 10 'a',
      List.replicate 9 'a'] : List (List Char)).Chain'
      (fun a b => b.take 3 = a.drop (a.length - 3)) :=
  @c2_amended (List.replicate 30 'a') 10 3
    [List.replicate 10 'a', List.replicate 10 'a', List.replicate 10 'a',
      List.replicate 9 'a']
    (by norm_num) (by norm_num) (by norm_num) ⟨5, by decide⟩

/-- C3 counterexample: termination does not hold for every
`0 ≤ overlap < targetSize`.  With chunk size 10, overlap 9 and a period at
index 8, the loop cuts at end 9 and restarts at `9 - 9 = 0` forever: no
amount of fuel makes the loop finish, so the segmentation does not
terminate on this input. -/
theorem c3_counterexample :
    ¬ ∃ l, splitRuns ['a', 'a', 'a', 'a', 'a', 'a', 'a', 'a', '.', 'a', 'a'] 10 9 l := by
  have key : ∀ fuel,
      chunkLoop ['a', 'a', 'a', 'a', 'a', 'a', 'a', 'a', '.', 'a', 'a'] 10 9 fuel 0
        = none := by
    intro fuel
    induction fuel with
    | zero => rfl
    | succ f ih =>
        show (match
            chunkLoop ['a', 'a', 'a', 'a', 'a', 'a', 'a', 'a', '.', 'a', 'a'] 10 9 f 0 with
          | none => none
          | some rest => some (['a', 'a', 'a', 'a', 'a', 'a', 'a', 'a', '.'] :: rest))
          = none
        rw [ih]
  rintro ⟨l, fuel, h⟩
  unfold split_text_into_chunks at h
  rw [if_neg (by decide), key fuel] at h
  exact Option.noConfusion h

/-- C3 amended: with the overlap at most half the chunk size (true of every
configuration the UI can produce, where overlap is capped at a quarter of
the chunk size) and a chunk size below `2 ^ 53`, segmentation terminates
for every text and returns a finite, non-empty ordered list of segments. -/
theorem c3_amended (text : List Char) (cs ov : Nat)
    (hcs : 0 < cs) (h53 : cs < 2 ^ 53) (hov : 2 * ov ≤ cs) :
    ∃ l, splitRuns text cs ov l ∧ l ≠ [] :=
  split_terminates text cs ov hcs h53 hov

theorem c3_witness : ∃ l, splitRuns "ab".data 1 0 l ∧ l ≠ [] :=
  c3_amended "ab".data 1 0 (by norm_num) (by norm_num) (by norm_num)

/-- C4 counterexample: on `"Hello world. This is a test!"` with target size
15 and overlap 0 the code does not return the two segments claimed by the
spec: the first cut lands right after the period (so the trailing space
stays in the second segment), the second window then cuts at its last
space, and three segments come out. -/
theorem c4_counterexample :
    splitRuns "Hello world. This is a test!".data 15 0
      ["Hello world.".data, " This is a".data, " test!".data] ∧
    ¬ splitRuns "Hello world. This is a test!".data 15 0
      ["Hello world. ".data, "This is a test!".data] := by
  have hrun : splitRuns "Hello world. This is a test!".data 15 0
      ["Hello world.".data, " This is a".data, " test!".data] := ⟨4, by decide⟩
  refine ⟨hrun, fun hclaim => ?_⟩
  have heq := splitRuns_unique hrun hclaim
  exact absurd heq (by decide)

/-- C4 amended: on `"Hello world. This is a test!"` with target size 15 and
overlap 0, segmentation returns exactly the three segments
`"Hello world."`, `" This is a"` and `" test!"`: the first cut falls
immediately after the sentence terminator found within the threshold
window (the terminator is kept, the following space moves to the next
segment). -/
theorem c4_amended :
    splitRuns "Hello world. This is a test!".data 15 0
      ["Hello world.".data, " This is a".data, " test!".data] :=
  ⟨4, by decide⟩

/-- C5 counterexample: for overlap 7 and chunk size 10 (a valid
configuration per the claim, `overlap < targetSize`), the window start can
move backwards past the text start; the run still terminates but dropping
the leading `overlap` characters of each later segment loses characters:
the reconstruction is not the input text. -/
theorem c5_counterexample :
    splitRuns "aaaaaa bbbb".data 10 7 ["aaaaaa".data, [], "aaaa bbbb".data] ∧
    reconstruct 7 ["aaaaaa".data, [], "aaaa bbbb".data] ≠ "aaaaaa bbbb".data :=
  ⟨⟨4, by decide⟩, by decide⟩

/-- C5 amended: with the overlap at most half the chunk size and a chunk
size below `2 ^ 53`, concatenating the first segment with every subsequent
segment stripped of its leading `overlap` characters reconstructs the
original text exactly. -/
theorem c5_amended {text : List Char} {cs ov : Nat} {l : List (List Char)}
    (hcs : 0 < cs) (h53 : cs < 2 ^ 53) (hov : 2 * ov ≤ cs)
    (h : splitRuns text cs ov l) : reconstruct ov l = text :=
  split_reconstruct hcs h53 hov h

theorem c5_witness :
    reconstruct 3 [List.replicate 10 'a', List.replicate 10 'a',
      List.replicate 10 'a', List.replicate 9 'a'] = List.replicate 30 'a' :=
  @c5_amended (List.replicate 30 'a') 10 3
    [List.replicate 10 'a', List.replicate 10 'a', List.replicate 10 'a',
      List.replicate 9 'a']
    (by norm_num) (by norm_num) (by norm_num) ⟨5, by decide⟩

/-- C6 counterexample: the empty input does not yield an empty sequence:
`len("") <= chunk_size` holds, so the code returns `[""]`, a one-element
list holding the blank segment. -/
theorem c6_counterexample :
    splitRuns [] 2000 50 [[]] ∧ ¬ splitRuns ([] : List Char) 2000 50 [] := by
  have hrun : splitRuns ([] : List Char) 2000 50 [[]] := ⟨1, by decide⟩
  refine ⟨hrun, fun hclaim => ?_⟩
  have heq := splitRuns_unique hrun hclaim
  simp at heq

/-- C6 amended: for the empty input string the segmentation returns the
one-element sequence containing the blank segment (which the orchestrator
later skips), for every chunk size, overlap and fuel. -/
theorem c6_amended (cs ov fuel : Nat) :
    split_text_into_chunks [] cs ov fuel = some [[]] := by
  unfold split_text_into_chunks
  rw [if_pos (by simp)]

/-- C7 counterexample: the word-boundary fallback looks only for the space
character, not for arbitrary whitespace.  In a 12-character text whose
window has a tab at offset 7 (past half the window, and recognised as
whitespace by the strip test) and no space, the cut falls at the hard
window edge, giving a first chunk of length 10, not a cut at the tab. -/
theorem c7_counterexample :
    splitRuns ['a', 'a', 'a', 'a', 'a', 'a', 'a', Char.ofNat 9, 'b', 'b', 'b', 'b'] 10 0
      [['a', 'a', 'a', 'a', 'a', 'a', 'a', Char.ofNat 9, 'b', 'b'], ['b', 'b']] ∧
    (['a', 'a', 'a', 'a', 'a', 'a', 'a', Char.ofNat 9, 'b', 'b', 'b', 'b'] :
      List Char)[7]? = some (Char.ofNat 9) ∧
    isPySpace (Char.ofNat 9) = true ∧ spaceCutB 7 10 = true ∧
    (['a', 'a', 'a', 'a', 'a', 'a', 'a', Char.ofNat 9, 'b', 'b'] : List Char).length
      = 10 :=
  ⟨⟨3, by decide⟩, by decide, by decide, by decide, by decide⟩

/-- C7 amended: with "whitespace" read as the space character (the only
character the source searches for), the fallback holds: when the first
window has no sentence terminator past the 0.7 threshold and its last
space lies past half the window, the first emitted segment ends exactly at
that space. -/
theorem c7_amended {text : List Char} {cs ov : Nat} {l : List (List Char)}
    (h : splitRuns text cs ov l) (hlen : cs < text.length)
    (hs : sentenceCutB (lastSentence (pySlice text 0 cs)) cs = false)
    (hsp : spaceCutB (rfind (pySlice text 0 cs) ' ') cs = true) :
    l.head? = some (pySlice text 0 (rfind (pySlice text 0 cs) ' ')) := by
  obtain ⟨fuel, h⟩ := h
  unfold split_text_into_chunks at h
  rw [if_neg (by omega)] at h
  cases fuel with
  | zero => simp [chunkLoop] at h
  | succ f =>
      have hlt : (0 : Int) < (text.length : Int) := by push_cast; omega
      rw [chunkLoop, if_pos hlt, if_neg (by push_cast; omega)] at h
      simp only [zero_add] at h
      unfold cutEnd at h
      rw [hs, hsp] at h
      simp only [Bool.false_eq_true, if_false, if_true, zero_add] at h
      cases hrec : chunkLoop text cs ov f (rfind (pySlice text 0 (cs : Int)) ' ' - ov) with
      | none =>
          rw [hrec] at h
          simp at h
      | some rest =>
          rw [hrec] at h
          have hl : l = pySlice text 0 (rfind (pySlice text 0 (cs : Int)) ' ') :: rest :=
            (Option.some.inj h).symm
          subst hl
          rfl

theorem c7_witness :
    (["aaaaaa".data, " bbbbb".data] : List (List Char)).head? =
      some (pySlice "aaaaaa bbbbb".data 0
        (rfind (pySlice "aaaaaa bbbbb".data 0 10) ' ')) :=
  @c7_amended "aaaaaa bbbbb".data 10 0 ["aaaaaa".data, " bbbbb".data]
    ⟨3, by decide⟩ (by decide) (by decide) (by decide)

/-- C8: the final output is the translated non-blank segment texts joined
in segment index order with a single-space separator; the loop is
sequential, so completion order cannot differ from submission order. -/
theorem c8_join_in_order
    (tf : Nat → List Char → Except (List Char) (List Char))
    (s0 s1 s2 t0 t1 t2 : List Char)
    (hb0 : isBlank s0 = false) (hb1 : isBlank s1 = false) (hb2 : isBlank s2 = false)
    (h0 : tf 0 s0 = Except.ok t0) (h1 : tf 1 s1 = Except.ok t1)
    (h2 : tf 2 s2 = Except.ok t2) :
    fullTranslation tf [s0, s1, s2] = t0 ++ [' '] ++ t1 ++ [' '] ++ t2 := by
  unfold fullTranslation translatedChunks runOrchestration
  have he : ([s0, s1, s2] : List (List Char)).enum = [(0, s0), (1, s1), (2, s2)] := rfl
  rw [he]
  simp [orchLoop, hb0, hb1, hb2, translate_chunk, h0, h1, h2, List.intercalate,
    List.intersperse]

theorem c8_witness :
    fullTranslation (fun _ t => Except.ok (t ++ t)) ["x".data, "y".data, "z".data]
      = "xx".data ++ [' '] ++ "yy".data ++ [' '] ++ "zz".data :=
  c8_join_in_order (fun _ t => Except.ok (t ++ t)) "x".data "y".data "z".data
    "xx".data "yy".data "zz".data (by decide) (by decide) (by decide) rfl rfl rfl

/-- C9 counterexample: the progress fraction is not reported after every
segment.  Blank segments are skipped before the progress update, so for
the two chunks `["a", " "]` only one report `(1, 2)` is issued: there is
no report for the second (whitespace-only) segment and the reported
fraction never reaches 1. -/
theorem c9_counterexample :
    progressReports [['a'], [' ']] = [(1, 2)] ∧
    progressReports [['a'], [' ']] ≠ [(1, 2), (2, 2)] :=
  ⟨by decide, by decide⟩

/-- C9 amended: a progress report `(i + 1, total)` is issued exactly for
the non-blank segments, in order; segments whose stripped text is empty
produce no report (so the fraction reaches 1 exactly when the final
segment is non-blank). -/
theorem c9_amended (chunks : List (List Char)) :
    progressReports chunks =
      (chunks.enum.filter (fun p => !isBlank p.2)).map
        (fun p => (p.1 + 1, chunks.length)) := by
  unfold progressReports runOrchestration
  exact orchLoop_reports _ _ _

/-- C10: every segment produced by `split_text_into_chunks` has length at
most `chunk_size`: all three cut branches stay within the window, and the
final remainder fits by the loop guard. -/
theorem c10_chunk_len_le {text : List Char} {cs ov : Nat} {l : List (List Char)}
    (hcs : 0 < cs) (hov : ov < cs) (h : splitRuns text cs ov l) :
    ∀ c ∈ l, c.length ≤ cs :=
  split_chunk_len_le hov h

theorem c10_witness :
    (List.replicate 9 'a' : List Char).length ≤ 10 :=
  @c10_chunk_len_le (List.replicate 30 'a') 10 3
    [List.replicate 10 'a', List.replicate 10 'a', List.replicate 10 'a',
      List.replicate 9 'a']
    (by norm_num) (by norm_num) ⟨5, by decide⟩ (List.replicate 9 'a') (by decide)

end CtxTranslator
